import Mathlib

/-!
Verification of the self-play training pipeline in `train_agent.py`.

The file shallowly embeds the pipeline's core functions:

* `prepare_training_data` (per-game: `prepareGame`): terminal truncation and
  backward value propagation over a recorded trajectory;
* the mini-batch index schedule of `train` (`batchStarts`, `runEpoch`);
* `collect_selfplay_data` (repeated driver calls over split sub-seeds);
* `collect_batched_selfplay_data` (the self-play driver, with its external
  collaborators — environment, policy network, MCTS search, key splitting —
  abstracted as pure function parameters per their interface contracts);
* `loss_fn` (value regression plus policy distillation loss), modelled over
  the real numbers in place of IEEE single precision.

Rewards and propagated values in the trajectory compiler are modelled as
rationals: the compiler only copies and negates rewards, and negation is
exact in floating point, so `ℚ` is a faithful executable model there.
-/

/-- AlphaZero training example, as in `train_agent.py` (`TrainingExample`):
the observed state, the MCTS target action weights, and the propagated
target value.  `S` and `W` are the opaque state/weights array types. -/
structure TrainingExample (S W : Type) where
  state : S
  action_weights : W
  value : ℚ
  deriving DecidableEq

/-- One recorded ply of one game (`MoveOutput` in `train_agent.py`, viewed
per game per ply): the pre-move canonical state, the MCTS action weights,
the post-move reward, and whether the game had already ended before the
ply (padding). -/
structure Ply (S W : Type) where
  state : S
  action_weights : W
  reward : ℚ
  terminated : Bool
  deriving DecidableEq

/-- The reverse-order walk of `prepare_training_data`'s inner loop: the list
argument is the game's plies from last to first (`idx = L - 1 - j`), the
`Option ℚ` accumulator is the Python `value` variable (`None` before the
last non-terminated ply is seen).  Terminated plies are skipped; the first
non-terminated ply emits its own reward, every later one emits the negation
of the previously emitted value. -/
def prepareGameRev {S W : Type} : Option ℚ → List (Ply S W) → List (TrainingExample S W)
  | _, [] => []
  | v, p :: rest =>
    if p.terminated then
      prepareGameRev v rest
    else
      match v with
      | none => ⟨p.state, p.action_weights, p.reward⟩ :: prepareGameRev (some p.reward) rest
      | some x => ⟨p.state, p.action_weights, -x⟩ :: prepareGameRev (some (-x)) rest

/-- Per-game part of `prepare_training_data`: walk the plies of one game in
reverse ply order, producing the game's training examples in emission order
(last ply first). -/
def prepareGame {S W : Type} (plies : List (Ply S W)) : List (TrainingExample S W) :=
  prepareGameRev none plies.reverse

/-- `prepare_training_data`: the per-game buffers of every game of the
batch, appended in game order into one flat buffer. -/
def prepare_training_data {S W : Type} (games : List (List (Ply S W))) :
    List (TrainingExample S W) :=
  (games.map prepareGame).flatten

/-- The game's non-terminated plies, in reverse ply order: exactly the plies
`prepare_training_data` visits without skipping, in visiting order. -/
def nonTermRev {S W : Type} (plies : List (Ply S W)) : List (Ply S W) :=
  plies.reverse.filter (fun p => !p.terminated)

/-- Specification-level alternating emission: example `k` (0-based) of the
list carries value `(-1)^k * r`. -/
def altExamples {S W : Type} (r : ℚ) : ℕ → List (Ply S W) → List (TrainingExample S W)
  | _, [] => []
  | k, p :: rest => ⟨p.state, p.action_weights, (-1)^k * r⟩ :: altExamples r (k+1) rest

/-- Specification-level compile of the non-terminated plies (reverse ply
order): no plies, no examples; otherwise alternate starting from the first
ply's reward. -/
def compileNT {S W : Type} : List (Ply S W) → List (TrainingExample S W)
  | [] => []
  | p :: rest => altExamples p.reward 0 (p :: rest)

/-- The reward-free part of a recorded ply: its state, action weights and
terminated flag. -/
def plyShape {S W : Type} (p : Ply S W) : S × W × Bool :=
  (p.state, p.action_weights, p.terminated)

/-- Concrete game for C1's example scenario: three non-terminal plies with
irrelevant rewards followed by a final non-terminal ply with reward `+1`. -/
def exampleGame4 : List (Ply ℕ ℕ) :=
  [⟨10, 20, 0, false⟩, ⟨11, 21, 0, false⟩, ⟨12, 22, 0, false⟩, ⟨13, 23, 1, false⟩]

/-- Concrete all-terminated trajectory (the game ended before the recorded
window starts). -/
def exampleAllTerminated : List (Ply ℕ ℕ) :=
  [⟨5, 6, 3, true⟩, ⟨7, 8, 2, true⟩]

/-- Concrete game, and the same game with a different reward recorded at
its non-final ply. -/
def exampleRewardA : List (Ply ℕ ℕ) := [⟨5, 7, 99, false⟩, ⟨6, 8, 1, false⟩]

/-- See `exampleRewardA`. -/
def exampleRewardB : List (Ply ℕ ℕ) := [⟨5, 7, 42, false⟩, ⟨6, 8, 1, false⟩]

/-- Start indices of the mini-batches of one training epoch, as produced by
Python `range(0, N - batch_size, batch_size)` in `train`: the multiples of
`M` strictly below `N - M` (truncated subtraction), i.e. the first
`ceil((N - M) / M)` multiples of `M`; the empty list when `N ≤ M`. -/
def batchStarts (N M : ℕ) : List ℕ :=
  (List.range (((N - M) + (M - 1)) / M)).map (fun j => j * M)

/-- Buffer indices covered by some mini-batch slice `buffer[i : i + M]` of
the epoch. -/
def usedIndices (N M : ℕ) : List ℕ :=
  ((batchStarts N M).map (fun s => List.range' s M)).flatten

/-- Outcome of the per-iteration bookkeeping after the mini-batch loop in
`train`: either the two per-loss means over the recorded mini-batch losses,
or the uncaught `ValueError` that Python's `zip(*losses)` raises when the
loop ran zero times and `losses` is empty. -/
inductive EpochResult where
  | metrics : ℝ → ℝ → EpochResult
  | emptyLossCrash : EpochResult

/-- The training-epoch bookkeeping of `train` once the shuffled buffer of
`N` examples is built: run one `train_step` per mini-batch start index,
collect the `(value_loss, policy_loss)` pairs, then average each component
over the recorded pairs — with the reference's crash when no mini-batch was
run.  The loss pair returned by `train_step` is abstracted as a function of
the start index. -/
noncomputable def runEpoch (stepLoss : ℕ → ℝ × ℝ) (N M : ℕ) : EpochResult :=
  match (batchStarts N M).map stepLoss with
  | [] => EpochResult.emptyLossCrash
  | ls => EpochResult.metrics ((ls.map Prod.fst).sum / ls.length)
      ((ls.map Prod.snd).sum / ls.length)

/-- `collect_selfplay_data`: split the master key into
`data_size // batch_size` sub-keys, call the self-play driver once per
sub-key appending each returned batch to a list `data`, and concatenate
the batches along the game axis with
`jax.tree_map(lambda *xs: np.concatenate(xs), *data)`.  When the loop ran
zero times, `data` is empty and that call is `jax.tree_map` applied with
its mandatory tree argument missing: it raises an uncaught `TypeError`
instead of returning, modelled as `none`.  The driver call and
`jax.random.split` are external, abstracted as the function parameters
`drv` and `splitKeys`. -/
def collect_selfplay_data {K G : Type} (drv : K → List G) (splitKeys : K → ℕ → List K)
    (rng_key : K) (batch_size data_size : ℕ) : Option (List G) :=
  match (splitKeys rng_key (data_size / batch_size)).foldl
      (fun acc k => acc ++ [drv k]) [] with
  | [] => none
  | data => some data.flatten

/-- Toy key splitting for witnesses: key `k` splits into `k, k+1, …`. -/
def toySplitKeys (k n : ℕ) : List ℕ := (List.range n).map (fun i => k + i)

/-- Toy self-play driver for witnesses: every call returns a batch of three
games. -/
def toyDriver (k : ℕ) : List ℕ := [k, k + 100, k + 200]

/-- The external collaborators of the self-play driver, pure and
deterministic given their inputs per the interface contracts.  Modelled
from the spec: the environment adapter, policy network, key splitting and
MCTS search live outside `train_agent.py` (in `env.py`, `policy_net.py`,
`tree_search.py` and the `jax`/`mctx` libraries). -/
structure SelfPlayOps (P E K Obs Flag Logits V W A R Mask : Type) where
  reset_env : E → E
  replicate : E → ℕ → E
  split : K → K × K
  canonical_observation : E → Obs
  is_terminated : E → Flag
  batched_policy : P → Obs → Logits × V
  invalid_actions : E → Mask
  search : P → K → Logits × V × E → Mask → W × A
  env_step : E → A → E × R

/-- The batched record of one self-play move (`MoveOutput` in
`train_agent.py`): pre-move observation batch, MCTS action-weight batch,
post-move reward batch, pre-move terminated-flag batch. -/
structure MoveOutput (Obs W R Flag : Type) where
  state : Obs
  action_weights : W
  reward : R
  terminated : Flag

/-- `single_move` inside `collect_batched_selfplay_data`: split the running
key in two, read the pre-move observations and terminal flags, run the
policy network, run the search with the first key half, step the
environments with the chosen actions, and record the move; the second key
half is threaded to the next ply. -/
def single_move {P E K Obs Flag Logits V W A R Mask : Type}
    (o : SelfPlayOps P E K Obs Flag Logits V W A R Mask) (agent : P)
    (ek : E × K) : (E × K) × MoveOutput Obs W R Flag :=
  let ks := o.split ek.2
  let state := o.canonical_observation ek.1
  let terminated := o.is_terminated ek.1
  let pv := o.batched_policy agent state
  let pol := o.search agent ks.1 (pv.1, pv.2, ek.1) (o.invalid_actions ek.1)
  let st := o.env_step ek.1 pol.2
  ((st.1, ks.2), ⟨state, pol.1, st.2, terminated⟩)

/-- The ply scan of `collect_batched_selfplay_data` (`pax.scan` over the
plies): iterate `single_move`, collecting the per-ply records in order. -/
def selfPlayScan {P E K Obs Flag Logits V W A R Mask : Type}
    (o : SelfPlayOps P E K Obs Flag Logits V W A R Mask) (agent : P) :
    ℕ → E × K → List (MoveOutput Obs W R Flag)
  | 0, _ => []
  | n+1, ek =>
    let step := single_move o agent ek
    step.2 :: selfPlayScan o agent n step.1

/-- `collect_batched_selfplay_data`: reset the environment, replicate it
`batch_size` times, and scan `single_move` over the fixed four plies,
starting from the given key. -/
def collect_batched_selfplay_data {P E K Obs Flag Logits V W A R Mask : Type}
    (o : SelfPlayOps P E K Obs Flag Logits V W A R Mask) (agent : P) (env : E)
    (rng_key : K) (batch_size : ℕ) : List (MoveOutput Obs W R Flag) :=
  selfPlayScan o agent 4 (o.replicate (o.reset_env env) batch_size, rng_key)

/-- Toy instantiation of the driver's collaborators for witnesses: all
types are `ℕ`, each operation a simple arithmetic function. -/
def toyOps : SelfPlayOps ℕ ℕ ℕ ℕ ℕ ℕ ℕ ℕ ℕ ℕ ℕ where
  reset_env e := e
  replicate e n := e + n
  split k := (2 * k + 1, 2 * k + 2)
  canonical_observation e := e
  is_terminated e := e % 2
  batched_policy p obs := (p + obs, obs)
  invalid_actions e := e
  search p k r m := (p + k + m, r.1)
  env_step e a := (e + a, a)

/-- Sum of elementwise exponentials: the denominator of softmax along the
action axis.  The loss pipeline is modelled over the reals in place of
IEEE single precision. -/
noncomputable def sumExp (x : List ℝ) : ℝ := (x.map Real.exp).sum

/-- `jax.nn.log_softmax` along the last axis: subtract the log of the
exponential sum from every component. -/
noncomputable def logSoftmax (x : List ℝ) : List ℝ :=
  x.map (fun v => v - Real.log (sumExp x))

/-- Softmax written directly as exponentials over their sum, used in the
specification-level restatements of the policy loss. -/
noncomputable def softmaxP (x : List ℝ) : List ℝ :=
  x.map (fun v => Real.exp v / sumExp x)

/-- `optax.l2_loss`: half the squared difference. -/
noncomputable def l2Loss (pred target : ℝ) : ℝ := (pred - target)^2 / 2

/-- `jnp.mean` over a 1-d array (with the empty mean `0/0 = 0`, as in
Lean's division). -/
noncomputable def rmean (l : List ℝ) : ℝ := l.sum / l.length

/-- What `loss_fn` consumes for one training example: the action logits and
value prediction that `batched_policy(net, data.state)` returns for the
example's state — the policy network is external to `train_agent.py`, so
its outputs enter as data — together with the example's target
`action_weights` and target `value`. -/
structure LossInput where
  logits : List ℝ
  value : ℝ
  action_weights : List ℝ
  target_value : ℝ

/-- The per-example policy term of `loss_fn`: with `lp` the log-softmax of
the predicted logits, `prs = exp lp` the predicted probabilities, and the
target log-probabilities `log_softmax(action_weights)` clipped below at
`-50`, the sum over the action axis of `prs * (lp - clipped_target)`. -/
noncomputable def klOne (logits w : List ℝ) : ℝ :=
  (List.zipWith (fun p d => p * d)
    ((logSoftmax logits).map Real.exp)
    (List.zipWith (fun a b => a - b) (logSoftmax logits)
      ((logSoftmax w).map (fun t => max t (-50))))).sum

/-- The value-loss component of `loss_fn`: mean `optax.l2_loss` between the
predicted and target values. -/
noncomputable def mseLoss (batch : List LossInput) : ℝ :=
  rmean (batch.map (fun e => l2Loss e.value e.target_value))

/-- The policy-loss component of `loss_fn`: mean per-example KL sum. -/
noncomputable def klLoss (batch : List LossInput) : ℝ :=
  rmean (batch.map (fun e => klOne e.logits e.action_weights))

/-- `loss_fn`: the total loss together with the `(mse_loss, kl_loss)` pair
it reports. -/
noncomputable def loss_fn (batch : List LossInput) : ℝ × ℝ × ℝ :=
  (mseLoss batch + klLoss batch, mseLoss batch, klLoss batch)

/-- Modelled from the spec's words for C3, reading the divergence as being
from the target distribution `action_weights` to the predicted one:
`Σ w_i * (clip(log w_i, -50) - log p_i)`, with `log p` the predicted
log-softmax and the target's own log clamped at `-50` before the sum. -/
noncomputable def klSpecTargetToPred (logits w : List ℝ) : ℝ :=
  (List.zipWith (fun wi lpi => wi * (max (Real.log wi) (-50) - lpi))
    w (logSoftmax logits)).sum

/-- Modelled from the spec's words for C3, under the opposite reading of
the divergence direction: `Σ p_i * (log p_i - clip(log w_i, -50))`, with
`p` the predicted distribution and the target's log clamped at `-50`. -/
noncomputable def klSpecPredToTarget (logits w : List ℝ) : ℝ :=
  (List.zipWith (fun pi wi => pi * (Real.log pi - max (Real.log wi) (-50)))
    ((logSoftmax logits).map Real.exp) w).sum

/-- The `e^{-50}`-floored KL divergence from distribution `p` to
distribution `q`: `Σ p_i * (log p_i - log (max q_i e^{-50}))`. -/
noncomputable def klFloored (p q : List ℝ) : ℝ :=
  (List.zipWith (fun pi qi => pi * (Real.log pi - Real.log (max qi (Real.exp (-50)))))
    p q).sum

/-- Concrete model logits whose softmax is exactly `[3/4, 1/4]`. -/
noncomputable def cexLogits : List ℝ := [Real.log (3/4), Real.log (1/4)]

/-- Concrete target action weights `[3/4, 1/4]`, equal to the predicted
distribution of `cexLogits`. -/
noncomputable def cexWeights : List ℝ := [3/4, 1/4]

/-- The singleton mini-batch used in the loss counterexamples. -/
noncomputable def cexBatch : List LossInput := [⟨cexLogits, 0, cexWeights, 0⟩]

theorem altExamples_succ {S W : Type} (r : ℚ) (k : ℕ) (l : List (Ply S W)) :
    altExamples r (k+1) l = altExamples (-r) k l := by
  induction l generalizing k with
  | nil => rfl
  | cons p rest ih =>
    have hv : ((-1 : ℚ))^(k+1) * r = (-1)^k * (-r) := by ring
    simp only [altExamples, ih, hv]

theorem prepareGameRev_some {S W : Type} (v : ℚ) (l : List (Ply S W)) :
    prepareGameRev (some v) l = altExamples (-v) 0 (l.filter (fun p => !p.terminated)) := by
  induction l generalizing v with
  | nil => rfl
  | cons p rest ih =>
    cases hb : p.terminated with
    | true => simp [prepareGameRev, hb, ih]
    | false =>
      have hv : ((-1 : ℚ))^0 * (-v) = -v := by ring
      simp only [prepareGameRev, hb, Bool.false_eq_true, if_false, List.filter_cons,
        Bool.not_false, if_true, altExamples, hv, List.cons.injEq, true_and]
      rw [ih, neg_neg]
      have h := altExamples_succ (-v) 0 (rest.filter (fun p => !p.terminated))
      simpa using h.symm

theorem prepareGameRev_none {S W : Type} (l : List (Ply S W)) :
    prepareGameRev none l = compileNT (l.filter (fun p => !p.terminated)) := by
  induction l with
  | nil => rfl
  | cons p rest ih =>
    cases hb : p.terminated with
    | true => simp [prepareGameRev, hb, ih, List.filter_cons]
    | false =>
      have hv : ((-1 : ℚ))^0 * p.reward = p.reward := by ring
      simp only [prepareGameRev, hb, Bool.false_eq_true, if_false, List.filter_cons,
        Bool.not_false, if_true, compileNT, altExamples, hv, List.cons.injEq, true_and]
      rw [prepareGameRev_some]
      have h := altExamples_succ p.reward 0 (rest.filter (fun p => !p.terminated))
      simpa using h.symm

/-- Master characterization of the trajectory compiler: per game, the output
is the alternating compile of the non-terminated plies taken in reverse ply
order. -/
theorem prepareGame_eq_compileNT {S W : Type} (plies : List (Ply S W)) :
    prepareGame plies = compileNT (nonTermRev plies) :=
  prepareGameRev_none plies.reverse

theorem altExamples_length {S W : Type} (r : ℚ) (k : ℕ) (l : List (Ply S W)) :
    (altExamples r k l).length = l.length := by
  induction l generalizing k with
  | nil => rfl
  | cons p rest ih => simp [altExamples, ih]

theorem altExamples_map_value {S W : Type} (r : ℚ) (k : ℕ) (l : List (Ply S W)) :
    (altExamples r k l).map TrainingExample.value
      = (List.range l.length).map (fun j => (-1)^(k+j) * r) := by
  induction l generalizing k with
  | nil => rfl
  | cons p rest ih =>
    simp only [altExamples, List.map_cons, List.length_cons, List.range_succ_eq_map,
      List.map_map, ih, Nat.add_zero]
    congr 1
    refine List.map_congr_left (fun j _ => ?_)
    simp only [Function.comp_apply, Nat.succ_eq_add_one]
    ring

theorem altExamples_map_state_weights {S W : Type} (r : ℚ) (k : ℕ) (l : List (Ply S W)) :
    (altExamples r k l).map (fun e => (e.state, e.action_weights))
      = l.map (fun p => (p.state, p.action_weights)) := by
  induction l generalizing k with
  | nil => rfl
  | cons p rest ih => simp [altExamples, ih]

theorem length_filter_reverse {S W : Type} (q : Ply S W → Bool) (l : List (Ply S W)) :
    (l.reverse.filter q).length = (l.filter q).length := by
  induction l with
  | nil => rfl
  | cons p rest ih =>
    rw [List.reverse_cons, List.filter_append, List.length_append, ih, List.filter_cons]
    cases hq : q p <;> simp [hq]

theorem filter_map_plyShape {S W : Type} :
    ∀ (l₁ l₂ : List (Ply S W)), l₁.map plyShape = l₂.map plyShape →
      (l₁.filter (fun p => !p.terminated)).map plyShape
        = (l₂.filter (fun p => !p.terminated)).map plyShape := by
  intro l₁
  induction l₁ with
  | nil => intro l₂ h; cases l₂ <;> simp_all
  | cons p rest ih =>
    intro l₂ h
    cases l₂ with
    | nil => simp at h
    | cons q rest₂ =>
      simp only [List.map_cons, List.cons.injEq] at h
      have ht : p.terminated = q.terminated := by
        have := congrArg (fun x => x.2.2) h.1
        simpa [plyShape] using this
      rw [List.filter_cons, List.filter_cons, ← ht]
      cases hb : p.terminated with
      | true => simpa using ih rest₂ h.2
      | false => simp only [Bool.not_false, if_true, List.map_cons, h.1, ih rest₂ h.2]

theorem altExamples_shape_congr {S W : Type} (r : ℚ) :
    ∀ (k : ℕ) (l₁ l₂ : List (Ply S W)), l₁.map plyShape = l₂.map plyShape →
      altExamples r k l₁ = altExamples r k l₂ := by
  intro k l₁
  induction l₁ generalizing k with
  | nil => intro l₂ h; cases l₂ <;> simp_all [altExamples]
  | cons p rest ih =>
    intro l₂ h
    cases l₂ with
    | nil => simp at h
    | cons q rest₂ =>
      simp only [List.map_cons, List.cons.injEq] at h
      have hs : p.state = q.state := congrArg (fun x => x.1) h.1
      have hw : p.action_weights = q.action_weights := congrArg (fun x => x.2.1) h.1
      simp only [altExamples, hs, hw, ih (k+1) rest₂ h.2]

theorem altExamples_value_cases {S W : Type} (r : ℚ) :
    ∀ (k : ℕ) (l : List (Ply S W)) (e : TrainingExample S W),
      e ∈ altExamples r k l → e.value = r ∨ e.value = -r := by
  intro k l
  induction l generalizing k with
  | nil => intro e he; simp [altExamples] at he
  | cons p rest ih =>
    intro e he
    simp only [altExamples, List.mem_cons] at he
    cases he with
    | inl h =>
      rcases Nat.even_or_odd k with hk | hk
      · left; rw [h]; simp [hk.neg_one_pow]
      · right; rw [h]; simp [hk.neg_one_pow]
    | inr h => exact ih (k+1) e h

/-- C1: backward value propagation.  If the last non-terminated ply of a
game carries reward `r₀`, then the training-example values emitted for the
game, in emission order (counting back from the last non-padding ply), are
exactly `r₀, -r₀, r₀, -r₀, …` (`(-1)^k * r₀` at position `k`), and each
example's value is the negation of the value emitted for the next later
non-terminated ply. -/
theorem prepare_values_alternate {S W : Type} (plies : List (Ply S W)) (r₀ : ℚ)
    (h : (nonTermRev plies).head?.map Ply.reward = some r₀) :
    ((prepareGame plies).map TrainingExample.value
        = (List.range (nonTermRev plies).length).map (fun k => (-1 : ℚ)^k * r₀))
    ∧ (∀ k, k + 1 < (prepareGame plies).length →
        ((prepareGame plies).map TrainingExample.value).get? (k+1)
          = (((prepareGame plies).map TrainingExample.value).get? k).map (fun v => -v)) := by
  obtain ⟨p, rest, hnt⟩ : ∃ p rest, nonTermRev plies = p :: rest := by
    cases h' : nonTermRev plies with
    | nil => rw [h'] at h; simp at h
    | cons p rest => exact ⟨p, rest, rfl⟩
  rw [hnt] at h
  simp only [List.head?_cons, Option.map_some', Option.some.injEq] at h
  have hmain : (prepareGame plies).map TrainingExample.value
      = (List.range (nonTermRev plies).length).map (fun k => (-1 : ℚ)^k * r₀) := by
    rw [prepareGame_eq_compileNT, hnt]
    show (altExamples p.reward 0 (p :: rest)).map TrainingExample.value = _
    rw [altExamples_map_value, h]
    exact List.map_congr_left (fun j _ => by rw [Nat.zero_add])
  refine ⟨hmain, ?_⟩
  intro k hk
  have hlen : (prepareGame plies).length = (nonTermRev plies).length := by
    rw [prepareGame_eq_compileNT, hnt]
    show (altExamples p.reward 0 (p :: rest)).length = _
    rw [altExamples_length]
  rw [hmain]
  have hk' : k + 1 < (nonTermRev plies).length := hlen ▸ hk
  have hk0 : k < (nonTermRev plies).length := Nat.lt_of_succ_lt hk'
  rw [List.get?_map, List.get?_map, List.get?_range hk', List.get?_range hk0]
  simp only [Option.map_some']
  congr 1
  ring

/-- Witness for C1: the example scenario — reward `+1` at the final ply and
three earlier non-terminal plies yields propagated values `+1, -1, +1, -1`
counting back from the final ply, i.e. `[-1, +1, -1, +1]` from earliest to
latest ply. -/
theorem prepare_values_alternate_witness :
    ((nonTermRev exampleGame4).head?.map Ply.reward = some 1)
    ∧ ((prepareGame exampleGame4).map TrainingExample.value
        = (List.range (nonTermRev exampleGame4).length).map (fun k => (-1 : ℚ)^k * 1))
    ∧ (prepareGame exampleGame4).map TrainingExample.value = [1, -1, 1, -1] :=
  ⟨by decide, (prepare_values_alternate exampleGame4 1 (by decide)).1, by decide⟩

/-- C2: padding exclusion.  The examples emitted for a game are exactly one
per non-terminated ply (states and action weights taken verbatim, in
reverse ply order); hence the number of examples equals the number of plies
with `terminated = false`, no example comes from a terminated ply, and an
all-terminated game contributes no examples. -/
theorem prepare_padding_exclusion {S W : Type} (plies : List (Ply S W)) :
    ((prepareGame plies).map (fun e => (e.state, e.action_weights))
        = (nonTermRev plies).map (fun p => (p.state, p.action_weights)))
    ∧ (prepareGame plies).length = plies.countP (fun p => !p.terminated)
    ∧ ((∀ p ∈ plies, p.terminated = true) → prepareGame plies = []) := by
  have hmaster := prepareGame_eq_compileNT plies
  refine ⟨?_, ?_, ?_⟩
  · rw [hmaster]
    cases hnt : nonTermRev plies with
    | nil => simp [compileNT]
    | cons p rest =>
      show (altExamples p.reward 0 (p :: rest)).map _ = _
      rw [altExamples_map_state_weights]
  · rw [hmaster]
    have hlen : (compileNT (nonTermRev plies)).length = (nonTermRev plies).length := by
      cases hnt : nonTermRev plies with
      | nil => simp [compileNT]
      | cons p rest =>
        show (altExamples p.reward 0 (p :: rest)).length = _
        rw [altExamples_length]
    rw [hlen]
    show (plies.reverse.filter (fun p => !p.terminated)).length = _
    rw [length_filter_reverse, List.countP_eq_length_filter]
  · intro hall
    rw [hmaster]
    have hnil : nonTermRev plies = [] := by
      apply List.filter_eq_nil_iff.mpr
      intro p hp
      simp [hall p (List.mem_reverse.mp hp)]
    rw [hnil]
    rfl

/-- Witness for C2: an all-terminated trajectory yields zero training
examples. -/
theorem prepare_padding_exclusion_witness :
    prepareGame exampleAllTerminated = [] :=
  (prepare_padding_exclusion exampleAllTerminated).2.2 (by decide)

/-- C9: only the final reward matters.  Two games with identical states,
action weights and terminated flags whose rewards agree at the last
non-terminated ply compile to identical example lists (rewards at all other
plies are discarded), and every emitted value equals the last
non-terminated ply's reward or its negation. -/
theorem prepare_only_final_reward {S W : Type} (ps₁ ps₂ : List (Ply S W))
    (hshape : ps₁.map plyShape = ps₂.map plyShape)
    (hr : (nonTermRev ps₁).head?.map Ply.reward = (nonTermRev ps₂).head?.map Ply.reward) :
    prepareGame ps₁ = prepareGame ps₂
    ∧ (∀ r₀, (nonTermRev ps₁).head?.map Ply.reward = some r₀ →
        ∀ e ∈ prepareGame ps₁, e.value = r₀ ∨ e.value = -r₀) := by
  have hnt : (nonTermRev ps₁).map plyShape = (nonTermRev ps₂).map plyShape := by
    show ((ps₁.reverse).filter _).map plyShape = ((ps₂.reverse).filter _).map plyShape
    apply filter_map_plyShape
    rw [List.map_reverse, List.map_reverse, hshape]
  constructor
  · rw [prepareGame_eq_compileNT, prepareGame_eq_compileNT]
    cases hnt₁ : nonTermRev ps₁ with
    | nil =>
      rw [hnt₁] at hnt
      cases hnt₂ : nonTermRev ps₂ with
      | nil => rfl
      | cons q rest₂ => rw [hnt₂] at hnt; simp at hnt
    | cons p rest =>
      rw [hnt₁] at hnt
      cases hnt₂ : nonTermRev ps₂ with
      | nil => rw [hnt₂] at hnt; simp at hnt
      | cons q rest₂ =>
        rw [hnt₁, hnt₂] at hr
        simp only [List.head?_cons, Option.map_some', Option.some.injEq] at hr
        rw [hnt₂] at hnt
        show altExamples p.reward 0 (p :: rest) = altExamples q.reward 0 (q :: rest₂)
        rw [hr]
        exact altExamples_shape_congr q.reward 0 _ _ hnt
  · intro r₀ h₀ e he
    cases hnt₁ : nonTermRev ps₁ with
    | nil => rw [prepareGame_eq_compileNT, hnt₁] at he; simp [compileNT] at he
    | cons p rest =>
      rw [hnt₁] at h₀
      simp only [List.head?_cons, Option.map_some', Option.some.injEq] at h₀
      rw [prepareGame_eq_compileNT, hnt₁] at he
      have := altExamples_value_cases p.reward 0 (p :: rest) e he
      rw [h₀] at this
      exact this

/-- Witness for C9: changing the reward recorded at the non-final ply does
not change the compiled training examples. -/
theorem prepare_only_final_reward_witness :
    prepareGame exampleRewardA = prepareGame exampleRewardB :=
  (prepare_only_final_reward exampleRewardA exampleRewardB (by decide) (by decide)).1

theorem foldl_append_eq_map {K G : Type} (drv : K → List G) :
    ∀ (keys : List K) (acc : List (List G)),
      keys.foldl (fun a k => a ++ [drv k]) acc = acc ++ keys.map drv := by
  intro keys
  induction keys with
  | nil => intro acc; simp
  | cons k ks ih => intro acc; simp [List.foldl_cons, ih]

theorem length_flatten_const {K G : Type} (f : K → List G) (B : ℕ)
    (hf : ∀ k, (f k).length = B) :
    ∀ l : List K, ((l.map f).flatten).length = l.length * B := by
  intro l
  induction l with
  | nil => simp
  | cons k ks ih =>
    simp only [List.map_cons, List.flatten_cons, List.length_append, ih, hf k,
      List.length_cons]
    ring

/-- Counterexample for C4: with a buffer of `N = 64` examples and
mini-batch size `M = 32` — so `M` divides `N` — the epoch of `train` runs
only one mini-batch, not `N / M = 2`, and the example at index `32` is
never used by any mini-batch even though only a final partial batch was
supposed to be dropped. -/
theorem batchStarts_drops_full_batch :
    (32 ∣ 64) ∧ (batchStarts 64 32).length ≠ 64 / 32 ∧ 32 ∉ usedIndices 64 32 := by
  decide

/-- C4 (amended): the training epoch takes full contiguous mini-batches at
start indices `0, M, 2M, …` strictly below `N - M`.  Every emitted batch
lies entirely inside the buffer; the batch count is `N / M` when `M` does
not divide `N` (exactly the final partial batch is dropped), but
`N / M - 1` when `M` divides `N` (the final full batch is dropped too). -/
theorem batchStarts_count (N M : ℕ) (hM : 0 < M) :
    (∀ s ∈ batchStarts N M, s + M ≤ N)
    ∧ (¬ (M ∣ N) → (batchStarts N M).length = N / M)
    ∧ ((M ∣ N) → (batchStarts N M).length = N / M - 1) := by
  refine ⟨?_, ?_, ?_⟩
  · intro s hs
    simp only [batchStarts, List.mem_map, List.mem_range] at hs
    obtain ⟨j, hj, rfl⟩ := hs
    have h1 : (j + 1) * M ≤ (N - M) + (M - 1) := (Nat.le_div_iff_mul_le hM).mp hj
    have h2 : j * M + M ≤ (N - M) + (M - 1) := by
      calc j * M + M = (j + 1) * M := by ring
      _ ≤ _ := h1
    revert h2
    generalize j * M = t
    intro h2
    omega
  · intro hnd
    have hmod : N % M < M := Nat.mod_lt _ hM
    have hr0 : N % M ≠ 0 := fun hc => hnd (Nat.dvd_of_mod_eq_zero hc)
    obtain ⟨q, hq⟩ : ∃ q, N / M = q := ⟨_, rfl⟩
    obtain ⟨r, hr⟩ : ∃ r, N % M = r := ⟨_, rfl⟩
    have hdm := Nat.div_add_mod N M
    rw [hq, hr] at hdm
    rw [hr] at hmod hr0
    simp only [batchStarts, List.length_map, List.length_range, hq]
    cases q with
    | zero =>
      have h1 : N - M = 0 := by omega
      rw [h1, Nat.zero_add, Nat.div_eq_of_lt (by omega)]
    | succ q' =>
      have ht : M * (q' + 1) = M * q' + M := by ring
      rw [ht] at hdm
      have hsub : (N - M) + (M - 1) = M * q' + (M - 1 + r) := by
        revert hdm
        generalize M * q' = t
        intro hdm
        omega
      have h2 : M - 1 + r = (r - 1) + M := by omega
      rw [hsub, Nat.mul_add_div hM, h2, Nat.add_div_right _ hM,
        Nat.div_eq_of_lt (by omega)]
  · intro hdvd
    obtain ⟨q, rfl⟩ := hdvd
    simp only [batchStarts, List.length_map, List.length_range]
    cases q with
    | zero =>
      rw [Nat.mul_zero, Nat.zero_div, Nat.zero_sub, Nat.zero_add,
        Nat.div_eq_of_lt (by omega)]
    | succ q' =>
      have ht : M * (q' + 1) = M * q' + M := by ring
      have hsub : (M * (q' + 1) - M) + (M - 1) = M * q' + (M - 1) := by
        rw [ht]
        revert ht
        generalize M * q' = t
        intro ht
        omega
      rw [hsub, Nat.mul_add_div hM, Nat.div_eq_of_lt (by omega),
        Nat.mul_div_cancel_left _ hM]
      omega

/-- Witness for C4's amended statement: at `N = 64`, `M = 32` the epoch
runs `64 / 32 - 1 = 1` mini-batch, each fully inside the buffer. -/
theorem batchStarts_count_witness :
    (∀ s ∈ batchStarts 64 32, s + 32 ≤ 64)
    ∧ (batchStarts 64 32).length = 64 / 32 - 1 := by
  have h := batchStarts_count 64 32 (by decide)
  exact ⟨h.1, h.2.2 (by decide)⟩

/-- Counterexample for C7: with 5 buffered examples and mini-batch size 32
the mini-batch loop of `train` runs zero times and the iteration then
crashes while aggregating the empty loss list (Python `zip(*losses)`
raises), rather than cleanly skipping the training step or signalling a
configuration error as the claim requires. -/
theorem runEpoch_crash_small_buffer :
    batchStarts 5 32 = [] ∧ runEpoch (fun _ => (0, 0)) 5 32 = EpochResult.emptyLossCrash :=
  ⟨rfl, rfl⟩

/-- C7 (amended): whenever the compiled buffer holds at most one mini-batch
of examples (`N ≤ M`, covering every buffer smaller than one mini-batch),
the epoch runs zero training steps and then crashes while aggregating the
empty loss list; the condition is never explicitly detected. -/
theorem runEpoch_small_buffer (stepLoss : ℕ → ℝ × ℝ) (N M : ℕ) (h : N ≤ M) :
    batchStarts N M = [] ∧ runEpoch stepLoss N M = EpochResult.emptyLossCrash := by
  have hb : batchStarts N M = [] := by
    unfold batchStarts
    have hz : ((N - M) + (M - 1)) / M = 0 := by
      rcases Nat.eq_zero_or_pos M with hM | hM
      · rw [hM, Nat.div_zero]
      · exact Nat.div_eq_of_lt (by omega)
    rw [hz]
    rfl
  refine ⟨hb, ?_⟩
  simp only [runEpoch, hb, List.map_nil]

/-- Witness for C7's amended statement at a concrete small buffer. -/
theorem runEpoch_small_buffer_witness :
    batchStarts 10 64 = [] ∧ runEpoch (fun _ => (1, 2)) 10 64 = EpochResult.emptyLossCrash :=
  runEpoch_small_buffer (fun _ => (1, 2)) 10 64 (by decide)

theorem collect_selfplay_data_eq_some {K G : Type} (drv : K → List G)
    (splitKeys : K → ℕ → List K) (rng_key : K) (batch_size data_size : ℕ)
    (hsplit : ∀ k n, (splitKeys k n).length = n)
    (hN : 1 ≤ data_size / batch_size) :
    collect_selfplay_data drv splitKeys rng_key batch_size data_size
      = some (((splitKeys rng_key (data_size / batch_size)).map drv).flatten) := by
  unfold collect_selfplay_data
  rw [foldl_append_eq_map, List.nil_append]
  obtain ⟨a, t, hk⟩ :
      ∃ a t, (splitKeys rng_key (data_size / batch_size)).map drv = a :: t := by
    cases hks : (splitKeys rng_key (data_size / batch_size)).map drv with
    | nil =>
      exfalso
      have hlen0 := congrArg List.length hks
      rw [List.length_map, hsplit] at hlen0
      simp only [List.length_nil] at hlen0
      omega
    | cons a t => exact ⟨a, t, rfl⟩
  rw [hk]

theorem collect_selfplay_data_eq_none {K G : Type} (drv : K → List G)
    (splitKeys : K → ℕ → List K) (rng_key : K) (batch_size data_size : ℕ)
    (hsplit : ∀ k n, (splitKeys k n).length = n)
    (hN0 : data_size / batch_size = 0) :
    collect_selfplay_data drv splitKeys rng_key batch_size data_size = none := by
  unfold collect_selfplay_data
  have hkeys : splitKeys rng_key (data_size / batch_size) = [] := by
    apply List.length_eq_zero.mp
    rw [hsplit, hN0]
  rw [hkeys]
  rfl

/-- Counterexample for C8: at `data_size = 2`, `batch_size = 3` the loop
performs `2 / 3 = 0` driver calls and the final concatenation —
`jax.tree_map(lambda *xs: np.concatenate(xs), *data)` over the empty batch
list — raises an uncaught `TypeError`: no concatenated record-of-arrays
result is produced, contradicting the claim's "for every data_size and
batch size B". -/
theorem collect_selfplay_data_no_result :
    collect_selfplay_data toyDriver toySplitKeys 0 3 2 = none := rfl

/-- C8 (amended): corpus collection.  `collect_selfplay_data` invokes the
self-play driver exactly `data_size / batch_size` times — once per sub-key
split from the one master key — and, whenever at least one call runs,
returns the concatenation, in call order, of the per-call game batches
along the game axis; when `data_size / batch_size = 0` it performs zero
driver calls and crashes in the final `jax.tree_map` concatenation instead
of returning a result. -/
theorem collect_selfplay_data_spec {K G : Type} (drv : K → List G)
    (splitKeys : K → ℕ → List K) (rng_key : K) (batch_size data_size : ℕ)
    (hsplit : ∀ k n, (splitKeys k n).length = n) :
    (splitKeys rng_key (data_size / batch_size)).length = data_size / batch_size
    ∧ (1 ≤ data_size / batch_size →
        collect_selfplay_data drv splitKeys rng_key batch_size data_size
          = some (((splitKeys rng_key (data_size / batch_size)).map drv).flatten))
    ∧ (data_size / batch_size = 0 →
        collect_selfplay_data drv splitKeys rng_key batch_size data_size = none) :=
  ⟨hsplit _ _,
    fun hN => collect_selfplay_data_eq_some drv splitKeys rng_key
      batch_size data_size hsplit hN,
    fun h0 => collect_selfplay_data_eq_none drv splitKeys rng_key
      batch_size data_size hsplit h0⟩

/-- Witness for C8 at a toy driver and key splitting, with
`data_size = 6`, `batch_size = 3`: two driver calls on sub-keys `0, 1`,
concatenated in call order. -/
theorem collect_selfplay_data_spec_witness :
    (toySplitKeys 0 (6 / 3)).length = 6 / 3
    ∧ collect_selfplay_data toyDriver toySplitKeys 0 3 6
        = some (((toySplitKeys 0 (6 / 3)).map toyDriver).flatten) := by
  have h := collect_selfplay_data_spec toyDriver toySplitKeys 0 3 6
    (fun k n => by simp [toySplitKeys])
  exact ⟨h.1, h.2.1 (by decide)⟩

/-- Counterexample for C10: at `data_size = 1 < 4 = batch_size` the
function does not return data from zero games — the zero-iteration path
crashes with an uncaught `TypeError` in the final `jax.tree_map`
concatenation over the empty batch list. -/
theorem collect_selfplay_data_zero_games_crash :
    collect_selfplay_data toyDriver toySplitKeys 0 4 1 = none := rfl

/-- C10 (amended): floor-division truncation.  When each driver call
returns `batch_size` games and at least one call runs
(`1 ≤ data_size / batch_size`), `collect_selfplay_data` silently returns
exactly `(data_size / batch_size) * batch_size` games — strictly fewer
than `data_size` when `batch_size` does not divide it, with no error or
warning; but for `data_size < batch_size` the zero-call path crashes with
an uncaught `TypeError` in the final concatenation instead of returning an
empty result. -/
theorem collect_selfplay_data_truncates {K G : Type} (drv : K → List G)
    (splitKeys : K → ℕ → List K) (rng_key : K) (batch_size data_size : ℕ)
    (hsplit : ∀ k n, (splitKeys k n).length = n)
    (hdrv : ∀ k, (drv k).length = batch_size) :
    (1 ≤ data_size / batch_size →
        (collect_selfplay_data drv splitKeys rng_key batch_size data_size).map
            List.length
          = some ((data_size / batch_size) * batch_size))
    ∧ (1 ≤ data_size / batch_size → ¬ (batch_size ∣ data_size) →
        ∀ n, (collect_selfplay_data drv splitKeys rng_key batch_size data_size).map
            List.length = some n →
          n < data_size)
    ∧ (data_size < batch_size →
        collect_selfplay_data drv splitKeys rng_key batch_size data_size = none) := by
  refine ⟨?_, ?_, ?_⟩
  · intro hN
    rw [collect_selfplay_data_eq_some drv splitKeys rng_key batch_size data_size
      hsplit hN]
    simp only [Option.map_some', Option.some.injEq]
    rw [length_flatten_const drv batch_size hdrv, hsplit]
  · intro hN hnd n hn
    rw [collect_selfplay_data_eq_some drv splitKeys rng_key batch_size data_size
      hsplit hN] at hn
    simp only [Option.map_some', Option.some.injEq] at hn
    rw [length_flatten_const drv batch_size hdrv, hsplit] at hn
    rw [← hn]
    refine lt_of_le_of_ne (Nat.div_mul_le_self data_size batch_size) ?_
    intro heq
    exact hnd ⟨data_size / batch_size, by rw [mul_comm]; exact heq.symm⟩
  · intro hlt
    exact collect_selfplay_data_eq_none drv splitKeys rng_key batch_size data_size
      hsplit (Nat.div_eq_of_lt hlt)

/-- Witness for C10's amended statement: `data_size = 7`,
`batch_size = 3` silently yields `2 * 3 = 6 < 7` games. -/
theorem collect_selfplay_data_truncates_witness :
    (collect_selfplay_data toyDriver toySplitKeys 0 3 7).map List.length = some 6
    ∧ 6 < 7 := by
  have h := collect_selfplay_data_truncates toyDriver toySplitKeys 0 3 7
    (fun k n => by simp [toySplitKeys]) (fun k => rfl)
  have h1 : (collect_selfplay_data toyDriver toySplitKeys 0 3 7).map List.length
      = some 6 := by
    rw [h.1 (by decide)]
  exact ⟨h1, h.2.1 (by decide) (by decide) 6 h1⟩

/-- C6: self-play determinism.  All randomness of the driver enters through
the explicit key, split once per ply and threaded through the scan; with
the external collaborators fixed (each deterministic by its interface
contract), identical seed, identical model weights and identical batch size
produce identical trajectory batches. -/
theorem collect_batched_selfplay_data_deterministic
    {P E K Obs Flag Logits V W A R Mask : Type}
    (o : SelfPlayOps P E K Obs Flag Logits V W A R Mask) (env : E)
    (agent₁ agent₂ : P) (k₁ k₂ : K) (b₁ b₂ : ℕ)
    (hp : agent₁ = agent₂) (hk : k₁ = k₂) (hb : b₁ = b₂) :
    collect_batched_selfplay_data o agent₁ env k₁ b₁
      = collect_batched_selfplay_data o agent₂ env k₂ b₂ := by
  rw [hp, hk, hb]

/-- Witness for C6 at the toy collaborators. -/
theorem collect_batched_selfplay_data_deterministic_witness :
    collect_batched_selfplay_data toyOps 3 5 7 2
      = collect_batched_selfplay_data toyOps 3 5 7 2 :=
  collect_batched_selfplay_data_deterministic toyOps 5 3 3 7 7 2 2 rfl rfl rfl

theorem sumExp_pos (x : List ℝ) (hx : x ≠ []) : 0 < sumExp x := by
  cases x with
  | nil => exact absurd rfl hx
  | cons a l =>
    have h1 : 0 < Real.exp a := Real.exp_pos a
    have h2 : 0 ≤ (l.map Real.exp).sum := List.sum_nonneg (fun y hy => by
      obtain ⟨z, _, rfl⟩ := List.mem_map.mp hy
      exact (Real.exp_pos z).le)
    simp only [sumExp, List.map_cons, List.sum_cons]
    linarith

theorem sum_map_div (l : List ℝ) (c : ℝ) :
    (l.map (fun v => v / c)).sum = l.sum / c := by
  induction l with
  | nil => simp
  | cons a t ih => simp [ih, add_div]

theorem exp_logSoftmax (x : List ℝ) (hx : x ≠ []) :
    (logSoftmax x).map Real.exp = softmaxP x := by
  simp only [logSoftmax, softmaxP, List.map_map]
  refine List.map_congr_left (fun v _ => ?_)
  simp only [Function.comp_apply]
  rw [Real.exp_sub, Real.exp_log (sumExp_pos x hx)]

theorem sum_softmaxP (x : List ℝ) (hx : x ≠ []) : (softmaxP x).sum = 1 := by
  have hpos := sumExp_pos x hx
  unfold softmaxP
  rw [show x.map (fun v => Real.exp v / sumExp x)
      = (x.map Real.exp).map (fun v => v / sumExp x) by rw [List.map_map]; rfl,
    sum_map_div]
  exact div_self (ne_of_gt hpos)

theorem exp_mul_sub_ge (a b : ℝ) : Real.exp a * (a - b) ≥ Real.exp a - Real.exp b := by
  have h := Real.add_one_le_exp (b - a)
  have hpos := Real.exp_pos a
  have h2 : (b - a + 1) * Real.exp a ≤ Real.exp (b - a) * Real.exp a :=
    mul_le_mul_of_nonneg_right h hpos.le
  rw [← Real.exp_add] at h2
  have h3 : b - a + a = b := by ring
  rw [h3] at h2
  nlinarith

theorem zip_gibbs (a : List ℝ) : ∀ (b : List ℝ), a.length = b.length →
    (List.zipWith (fun p d => p * d) (a.map Real.exp)
      (List.zipWith (fun x y => x - y) a b)).sum
      ≥ (a.map Real.exp).sum - (b.map Real.exp).sum := by
  induction a with
  | nil =>
    intro b hlen
    cases b with
    | nil => simp
    | cons y t => simp at hlen
  | cons x xs ih =>
    intro b hlen
    cases b with
    | nil => simp at hlen
    | cons y ys =>
      simp only [List.map_cons, List.zipWith_cons_cons, List.sum_cons]
      have h1 := exp_mul_sub_ge x y
      have h2 := ih ys (by simpa using hlen)
      linarith

theorem clip_noop (w : List ℝ) (h : ∀ t ∈ logSoftmax w, (-50 : ℝ) ≤ t) :
    (logSoftmax w).map (fun t => max t (-50)) = logSoftmax w := by
  have h2 : ∀ t ∈ logSoftmax w, max t (-50) = t := fun t ht => max_eq_left (h t ht)
  rw [List.map_congr_left h2, List.map_id']

theorem klOne_nonneg (logits w : List ℝ) (hne : logits ≠ [])
    (hlen : logits.length = w.length)
    (hclip : ∀ t ∈ logSoftmax w, (-50 : ℝ) ≤ t) :
    0 ≤ klOne logits w := by
  have hwne : w ≠ [] := by
    intro hw
    rw [hw, List.length_nil] at hlen
    exact hne (List.length_eq_zero.mp hlen)
  unfold klOne
  rw [clip_noop w hclip]
  have h := zip_gibbs (logSoftmax logits) (logSoftmax w) (by simp [logSoftmax, hlen])
  have h1 : ((logSoftmax logits).map Real.exp).sum = 1 := by
    rw [exp_logSoftmax logits hne, sum_softmaxP logits hne]
  have h2 : ((logSoftmax w).map Real.exp).sum = 1 := by
    rw [exp_logSoftmax w hwne, sum_softmaxP w hwne]
  linarith

theorem zip_self_zero (a : List ℝ) :
    (List.zipWith (fun p d => p * d) (a.map Real.exp)
      (List.zipWith (fun x y => x - y) a a)).sum = 0 := by
  induction a with
  | nil => simp
  | cons x xs ih =>
    simp only [List.map_cons, List.zipWith_cons_cons, List.sum_cons, sub_self, mul_zero,
      zero_add]
    exact ih

theorem map_exp_inj (a b : List ℝ) (h : a.map Real.exp = b.map Real.exp) : a = b :=
  List.map_injective_iff.mpr Real.exp_injective h

theorem klOne_eq_zero (logits w : List ℝ)
    (hclip : ∀ t ∈ logSoftmax w, (-50 : ℝ) ≤ t)
    (heq : logSoftmax logits = logSoftmax w) :
    klOne logits w = 0 := by
  unfold klOne
  rw [clip_noop w hclip, ← heq, zip_self_zero]

theorem rmean_nonneg (l : List ℝ) (h : ∀ x ∈ l, 0 ≤ x) : 0 ≤ rmean l :=
  div_nonneg (List.sum_nonneg h) (Nat.cast_nonneg _)

/-- C5 (amended): the value loss of `loss_fn` is nonnegative for all
inputs.  The policy loss is nonnegative for every mini-batch in which each
example has nonempty logits matching its `action_weights` in length and no
target entry is clipped (every `log_softmax(action_weights)` component is
at least `-50`); it equals zero when additionally each example's predicted
distribution equals the softmax of its `action_weights`.  (As the
counterexample shows, the policy loss need not vanish when the predicted
distribution equals `action_weights` itself, because the code passes the
weights through `log_softmax` rather than `log`.) -/
theorem loss_fn_nonneg (batch : List LossInput) :
    0 ≤ (loss_fn batch).2.1
    ∧ ((∀ e ∈ batch, e.logits ≠ [] ∧ e.logits.length = e.action_weights.length ∧
          ∀ t ∈ logSoftmax e.action_weights, (-50 : ℝ) ≤ t) →
        0 ≤ (loss_fn batch).2.2)
    ∧ ((∀ e ∈ batch, (e.logits ≠ [] ∧ e.logits.length = e.action_weights.length ∧
          ∀ t ∈ logSoftmax e.action_weights, (-50 : ℝ) ≤ t) ∧
          (logSoftmax e.logits).map Real.exp
            = (logSoftmax e.action_weights).map Real.exp) →
        (loss_fn batch).2.2 = 0) := by
  refine ⟨?_, ?_, ?_⟩
  · apply rmean_nonneg
    intro x hx
    obtain ⟨e, _, rfl⟩ := List.mem_map.mp hx
    unfold l2Loss
    positivity
  · intro h
    apply rmean_nonneg
    intro x hx
    obtain ⟨e, he, rfl⟩ := List.mem_map.mp hx
    obtain ⟨h1, h2, h3⟩ := h e he
    exact klOne_nonneg e.logits e.action_weights h1 h2 h3
  · intro h
    show klLoss batch = 0
    unfold klLoss
    have hmap : batch.map (fun e => klOne e.logits e.action_weights)
        = batch.map (fun _ => 0) := by
      refine List.map_congr_left (fun e he => ?_)
      obtain ⟨⟨h1, h2, h3⟩, h4⟩ := h e he
      exact klOne_eq_zero e.logits e.action_weights h3 (map_exp_inj _ _ h4)
    rw [hmap]
    have hz : (batch.map (fun _ => (0:ℝ))).sum = 0 := by
      induction batch with
      | nil => simp
      | cons e t ih => simp [ih]
    unfold rmean
    rw [hz, zero_div]

/-- Witness for C5's amended statement: a uniform singleton batch with
matching predicted and target distributions has nonnegative value loss and
zero policy loss. -/
theorem loss_fn_nonneg_witness :
    0 ≤ (loss_fn [⟨[0, 0], 1, [0, 0], 0⟩]).2.1
    ∧ 0 ≤ (loss_fn [⟨[0, 0], 1, [0, 0], 0⟩]).2.2
    ∧ (loss_fn [⟨[0, 0], 1, [0, 0], 0⟩]).2.2 = 0 := by
  have hcond : ∀ e ∈ [(⟨[0, 0], 1, [0, 0], 0⟩ : LossInput)],
      (e.logits ≠ [] ∧ e.logits.length = e.action_weights.length ∧
        ∀ t ∈ logSoftmax e.action_weights, (-50 : ℝ) ≤ t) ∧
      (logSoftmax e.logits).map Real.exp
        = (logSoftmax e.action_weights).map Real.exp := by
    intro e he
    rw [List.mem_singleton] at he
    subst he
    refine ⟨⟨by simp, by simp, ?_⟩, rfl⟩
    intro t ht
    have hsum : sumExp [(0:ℝ), 0] = 2 := by
      norm_num [sumExp, Real.exp_zero]
    simp only [logSoftmax, hsum, List.map_cons, List.map_nil, List.mem_cons,
      List.not_mem_nil, or_false] at ht
    have hlog := Real.log_two_lt_d9
    rcases ht with h | h <;> rw [h] <;> linarith
  have h := loss_fn_nonneg [⟨[0, 0], 1, [0, 0], 0⟩]
  exact ⟨h.1, h.2.1 (fun e he => (hcond e he).1), h.2.2 hcond⟩

theorem sumExp_cexLogits : sumExp cexLogits = 1 := by
  unfold sumExp cexLogits
  rw [List.map_cons, List.map_cons, List.map_nil,
    Real.exp_log (by norm_num : (0:ℝ) < 3/4),
    Real.exp_log (by norm_num : (0:ℝ) < 1/4)]
  norm_num

theorem logSoftmax_cexLogits : logSoftmax cexLogits = cexLogits := by
  unfold logSoftmax
  rw [sumExp_cexLogits, Real.log_one]
  simp

theorem exp_logSoftmax_cexLogits : (logSoftmax cexLogits).map Real.exp = cexWeights := by
  rw [logSoftmax_cexLogits]
  unfold cexLogits cexWeights
  rw [List.map_cons, List.map_cons, List.map_nil,
    Real.exp_log (by norm_num : (0:ℝ) < 3/4),
    Real.exp_log (by norm_num : (0:ℝ) < 1/4)]

theorem sumExp_cexWeights : sumExp cexWeights = Real.exp (3/4) + Real.exp (1/4) := by
  unfold sumExp cexWeights
  simp

theorem log_sumExp_cexWeights_lt_two : Real.log (sumExp cexWeights) < 2 := by
  have hZpos : 0 < sumExp cexWeights := by
    rw [sumExp_cexWeights]; positivity
  rw [Real.log_lt_iff_lt_exp hZpos, sumExp_cexWeights]
  have h1 : Real.exp (3/4) < Real.exp 1 := Real.exp_lt_exp.mpr (by norm_num)
  have h2 : Real.exp (1/4) < Real.exp 1 := Real.exp_lt_exp.mpr (by norm_num)
  have h3 : Real.exp 2 = Real.exp 1 * Real.exp 1 := by
    rw [← Real.exp_add]; norm_num
  have h4 : 2 < Real.exp 1 := by
    have := Real.exp_one_gt_d9
    linarith
  nlinarith

theorem logSoftmax_cexWeights_ge : ∀ t ∈ logSoftmax cexWeights, (-50 : ℝ) ≤ t := by
  intro t ht
  have hlog := log_sumExp_cexWeights_lt_two
  simp only [logSoftmax, cexWeights, List.map_cons, List.map_nil, List.mem_cons,
    List.not_mem_nil, or_false] at ht hlog
  rcases ht with h | h <;> rw [h] <;> linarith

theorem klOne_cex_value :
    klOne cexLogits cexWeights
      = 3/4 * (Real.log (3/4)
          - (3/4 - Real.log (Real.exp (3/4) + Real.exp (1/4))))
        + 1/4 * (Real.log (1/4)
          - (1/4 - Real.log (Real.exp (3/4) + Real.exp (1/4)))) := by
  unfold klOne
  rw [clip_noop cexWeights logSoftmax_cexWeights_ge, exp_logSoftmax_cexLogits,
    logSoftmax_cexLogits]
  unfold logSoftmax
  rw [sumExp_cexWeights]
  unfold cexLogits cexWeights
  simp only [List.map_cons, List.map_nil, List.zipWith_cons_cons, List.zipWith_nil_right,
    List.sum_cons, List.sum_nil]
  ring

theorem klOne_cex_pos : 0 < klOne cexLogits cexWeights := by
  rw [klOne_cex_value]
  set Z := Real.exp (3/4) + Real.exp (1/4) with hZ
  have hZpos : 0 < Z := by rw [hZ]; positivity
  set q1 := Real.exp (3/4) / Z with hq1
  set q2 := Real.exp (1/4) / Z with hq2
  have hq1pos : 0 < q1 := by rw [hq1]; positivity
  have hq2pos : 0 < q2 := by rw [hq2]; positivity
  have hlogq1 : Real.log q1 = 3/4 - Real.log Z := by
    rw [hq1, Real.log_div (Real.exp_ne_zero _) (ne_of_gt hZpos), Real.log_exp]
  have hlogq2 : Real.log q2 = 1/4 - Real.log Z := by
    rw [hq2, Real.log_div (Real.exp_ne_zero _) (ne_of_gt hZpos), Real.log_exp]
  have hsum : q1 + q2 = 1 := by
    rw [hq1, hq2, div_add_div_same, ← hZ]
    exact div_self (ne_of_gt hZpos)
  have hne1 : q1 / (3/4) ≠ 1 := by
    intro hc
    rw [div_eq_one_iff_eq (by norm_num : (3/4 : ℝ) ≠ 0), hq1] at hc
    have hc2 : Real.exp (3/4) = 3/4 * Z := by
      field_simp at hc
      linarith
    rw [hZ] at hc2
    have he : Real.exp (3/4) = 3 * Real.exp (1/4) := by linarith
    have hmul : Real.exp (1/2) * Real.exp (1/4) = 3 * Real.exp (1/4) := by
      rw [← Real.exp_add]
      norm_num
      linarith [he]
    have hhalf : Real.exp (1/2) = 3 := mul_right_cancel₀ (Real.exp_ne_zero _) hmul
    have h9 : Real.exp 1 = 9 := by
      have hsplit : Real.exp 1 = Real.exp (1/2) * Real.exp (1/2) := by
        rw [← Real.exp_add]; norm_num
      rw [hsplit, hhalf]; norm_num
    have := Real.exp_one_lt_d9
    linarith
  have hd1 : Real.log (q1 / (3/4)) = Real.log q1 - Real.log (3/4) :=
    Real.log_div (ne_of_gt hq1pos) (by norm_num)
  have hd2 : Real.log (q2 / (1/4)) = Real.log q2 - Real.log (1/4) :=
    Real.log_div (ne_of_gt hq2pos) (by norm_num)
  have hlt : Real.log (q1 / (3/4)) < q1 / (3/4) - 1 :=
    Real.log_lt_sub_one_of_pos (by positivity) hne1
  have hle : Real.log (q2 / (1/4)) ≤ q2 / (1/4) - 1 :=
    Real.log_le_sub_one_of_pos (by positivity)
  have e1 : 3/4 * Real.log (q1 / (3/4)) < q1 - 3/4 := by
    have hscale := mul_lt_mul_of_pos_left hlt (by norm_num : (0:ℝ) < 3/4)
    have hring : 3/4 * (q1 / (3/4) - 1) = q1 - 3/4 := by ring
    linarith
  have e2 : 1/4 * Real.log (q2 / (1/4)) ≤ q2 - 1/4 := by
    have hscale := mul_le_mul_of_nonneg_left hle (by norm_num : (0:ℝ) ≤ 1/4)
    have hring : 1/4 * (q2 / (1/4) - 1) = q2 - 1/4 := by ring
    linarith
  rw [hd1] at e1
  rw [hd2] at e2
  rw [← hlogq1, ← hlogq2]
  linarith

theorem loss_fn_cexBatch_kl : (loss_fn cexBatch).2.2 = klOne cexLogits cexWeights := by
  show klLoss cexBatch = _
  unfold klLoss cexBatch rmean
  simp

/-- Counterexample for C5: a singleton mini-batch whose predicted action
distribution equals its target `action_weights` exactly (both `[3/4, 1/4]`)
has strictly positive policy loss: `loss_fn` measures the divergence
against `softmax(action_weights)`, not against `action_weights`, so the
loss does not vanish when the predicted distribution equals the target. -/
theorem loss_fn_policy_not_zero_on_match :
    ((logSoftmax cexLogits).map Real.exp = cexWeights)
    ∧ (loss_fn cexBatch).2.2 ≠ 0 := by
  refine ⟨exp_logSoftmax_cexLogits, ?_⟩
  rw [loss_fn_cexBatch_kl]
  exact ne_of_gt klOne_cex_pos

theorem exp_neg_fifty_le_quarter : Real.exp (-50) ≤ 1/4 := by
  have h1 : Real.exp (-50) ≤ Real.exp (-2) := Real.exp_le_exp.mpr (by norm_num)
  have h4 : Real.exp 2 = Real.exp 1 * Real.exp 1 := by
    rw [← Real.exp_add]; norm_num
  have h3 : 4 ≤ Real.exp 2 := by
    nlinarith [Real.exp_one_gt_d9]
  have h5 : Real.exp (-2) ≤ 1/4 := by
    rw [Real.exp_neg]
    have := inv_le_inv_of_le (by norm_num : (0:ℝ) < 4) h3
    simpa using this
  linarith

theorem log_cexWeights_ge_neg_fifty :
    (-50 : ℝ) ≤ Real.log (3/4) ∧ (-50 : ℝ) ≤ Real.log (1/4) := by
  constructor
  · rw [Real.le_log_iff_exp_le (by norm_num : (0:ℝ) < 3/4)]
    linarith [exp_neg_fifty_le_quarter]
  · rw [Real.le_log_iff_exp_le (by norm_num : (0:ℝ) < 1/4)]
    exact exp_neg_fifty_le_quarter

theorem klSpecTargetToPred_cex : klSpecTargetToPred cexLogits cexWeights = 0 := by
  unfold klSpecTargetToPred
  rw [logSoftmax_cexLogits]
  unfold cexLogits cexWeights
  simp only [List.zipWith_cons_cons, List.zipWith_nil_right, List.sum_cons, List.sum_nil]
  rw [max_eq_left log_cexWeights_ge_neg_fifty.1, max_eq_left log_cexWeights_ge_neg_fifty.2]
  ring

theorem klSpecPredToTarget_cex : klSpecPredToTarget cexLogits cexWeights = 0 := by
  unfold klSpecPredToTarget
  rw [exp_logSoftmax_cexLogits]
  unfold cexWeights
  simp only [List.zipWith_cons_cons, List.zipWith_nil_right, List.sum_cons, List.sum_nil]
  rw [max_eq_left log_cexWeights_ge_neg_fifty.1, max_eq_left log_cexWeights_ge_neg_fifty.2]
  ring

/-- Counterexample for C3: on a concrete mini-batch the policy loss of
`loss_fn` (strictly positive there) differs from the claimed clamped KL
divergence between the target `action_weights` and the predicted
distribution (zero there), under either reading of the divergence
direction: the code applies `log_softmax` — not `log` — to
`action_weights`, so its target distribution is `softmax(action_weights)`
rather than `action_weights`. -/
theorem loss_fn_policy_not_spec_kl :
    (loss_fn cexBatch).2.2 ≠ klSpecTargetToPred cexLogits cexWeights
    ∧ (loss_fn cexBatch).2.2 ≠ klSpecPredToTarget cexLogits cexWeights := by
  rw [loss_fn_cexBatch_kl, klSpecTargetToPred_cex, klSpecPredToTarget_cex]
  exact ⟨ne_of_gt klOne_cex_pos, ne_of_gt klOne_cex_pos⟩

theorem zipWith_map_both {A B : Type} (F : ℝ → ℝ → ℝ) (g : A → ℝ) (h : B → ℝ) :
    ∀ (l : List A) (w : List B),
      List.zipWith F (l.map g) (w.map h) = List.zipWith (fun a b => F (g a) (h b)) l w := by
  intro l
  induction l with
  | nil => intro w; simp
  | cons a as ih =>
    intro w
    cases w with
    | nil => simp
    | cons b bs => simp [ih]

theorem zipWith_map_zipWith {A B : Type} (F : ℝ → ℝ → ℝ) (g : A → ℝ) (h : A → B → ℝ) :
    ∀ (l : List A) (w : List B),
      List.zipWith F (l.map g) (List.zipWith h l w)
        = List.zipWith (fun a b => F (g a) (h a b)) l w := by
  intro l
  induction l with
  | nil => intro w; simp
  | cons a as ih =>
    intro w
    cases w with
    | nil => simp
    | cons b bs => simp [ih]

theorem zipWith_congr_fun {A B : Type} (f g : A → B → ℝ) (l : List A) (w : List B)
    (h : ∀ a b, f a b = g a b) : List.zipWith f l w = List.zipWith g l w := by
  induction l generalizing w with
  | nil => simp
  | cons a as ih =>
    cases w with
    | nil => simp
    | cons b bs => simp [h, ih]

theorem klOne_eq_klFloored_aux (l w : List ℝ) (hl : l ≠ []) (hw : w ≠ []) :
    klOne l w = klFloored (softmaxP l) (softmaxP w) := by
  have hS := sumExp_pos l hl
  have hT := sumExp_pos w hw
  unfold klOne klFloored softmaxP logSoftmax
  simp only [List.map_map]
  rw [zipWith_map_both (fun a b => a - b), zipWith_map_zipWith, zipWith_map_both]
  refine congrArg List.sum (zipWith_congr_fun _ _ l w (fun a b => ?_))
  simp only [Function.comp_apply]
  have h1 : Real.exp (a - Real.log (sumExp l)) = Real.exp a / sumExp l := by
    rw [Real.exp_sub, Real.exp_log hS]
  have h2 : Real.log (Real.exp a / sumExp l) = a - Real.log (sumExp l) := by
    rw [Real.log_div (Real.exp_ne_zero a) (ne_of_gt hS), Real.log_exp]
  have h3 : Real.log (max (Real.exp b / sumExp w) (Real.exp (-50)))
      = max (b - Real.log (sumExp w)) (-50) := by
    have hb : Real.exp b / sumExp w = Real.exp (b - Real.log (sumExp w)) := by
      rw [Real.exp_sub, Real.exp_log hT]
    rw [hb, ← Real.exp_monotone.map_max, Real.log_exp]
  rw [h1, h2, h3]

theorem klOne_eq_klFloored (l w : List ℝ) :
    klOne l w = klFloored (softmaxP l) (softmaxP w) := by
  rcases eq_or_ne l [] with hl | hl
  · subst hl
    simp [klOne, klFloored, softmaxP, logSoftmax]
  rcases eq_or_ne w [] with hw | hw
  · subst hw
    simp [klOne, klFloored, softmaxP, logSoftmax]
  exact klOne_eq_klFloored_aux l w hl hw

/-- C3 (amended): the policy loss of `loss_fn` equals the mean over the
mini-batch of the KL divergence, computed in log-space, from the predicted
distribution `softmax(logits)` to the `e^{-50}`-floored
`softmax(action_weights)` — not to `action_weights` itself: the code
normalizes the stored weights through `log_softmax` (the softmax of a
probability vector differs from the vector), and clamping that target's
log at `-50` is flooring the target probability at `e^{-50}`. -/
theorem loss_fn_policy_is_floored_kl (batch : List LossInput) :
    (loss_fn batch).2.2
      = rmean (batch.map
          (fun e => klFloored (softmaxP e.logits) (softmaxP e.action_weights))) := by
  show klLoss batch = _
  unfold klLoss
  refine congrArg rmean ?_
  exact List.map_congr_left (fun e _ => klOne_eq_klFloored e.logits e.action_weights)
